import Mathlib

/-!
Verification of the filter-and-aggregate pipeline of a sales dashboard
(`src/app.py`). Rows of the loaded CSV table are modelled as records;
pandas dataframes become Lean lists of rows; pandas boolean-mask filters
become `List.filter`. Monetary values (the `SALES` column, a float64 in
pandas) are modelled as exact rationals; calendar timestamps are modelled
by their ordinal as naturals. Division by a zero denominator, which in
numpy produces a NaN float rather than raising, is modelled by `Option`:
`none` stands for NaN. `groupby` with its default `sort=True` produces one
group per distinct key in ascending key order; `sort_values` with
`ascending=False` computes an ascending argsort of the values and reverses
it (pandas `nargsort`), the argsort being stable at the sizes considered
here, so it is modelled as a stable ascending insertion sort followed by
`List.reverse`.
-/

/-- One row of the sales table, with the columns the program reads:
ORDERNUMBER, ORDERDATE, SALES, CUSTOMERNAME, PRODUCTCODE, PRODUCTLINE,
COUNTRY, STATUS. -/
structure Row where
  ordernumber : Nat
  orderdate : Nat
  sales : Rat
  customername : String
  productcode : String
  productline : String
  country : String
  status : String
deriving DecidableEq

/-- Exact rational addition, written through `mkRat` so that it reduces in
the kernel (the library `Rat.add` is irreducible); `rAdd_eq_add` below
shows it agrees with the ring addition on `Rat`. -/
def rAdd (a b : Rat) : Rat :=
  mkRat (a.num * b.den + b.num * a.den) (a.den * b.den)

/-- Exact division of a rational by a natural number, written through
`mkRat` so that it reduces in the kernel; `rDivNat_eq_div` below shows it
agrees with the field division on `Rat`. -/
def rDivNat (a : Rat) (n : Nat) : Rat :=
  mkRat a.num (a.den * n)

/-- `data['SALES'].sum()`: sum of the SALES column. -/
def sumSales (data : List Row) : Rat :=
  data.foldr (fun r acc => rAdd r.sales acc) 0

/-- `data[col].nunique()`: number of distinct values in a column. -/
def nunique {α : Type} [DecidableEq α] (col : Row → α) (data : List Row) : Nat :=
  (data.map col).dedup.length

/-- A KPI entry as returned by `calculate_kpis`: the Python list mixes
formatted strings (`sales_in_m`, `average_sales_per_order`) with integer
counts (`total_orders`, `unique_customers`). -/
inductive KPIEntry where
  | num : Nat → KPIEntry
  | str : String → KPIEntry
deriving DecidableEq

/-- Round a rational to the nearest integer, halves to even: the rounding
used by Python/numpy `.2f` float formatting. Written on the numerator and
denominator directly (floor `f`, remainder `r`, and `r/den` compared with
`1/2` by cross-multiplication) so that it reduces in the kernel. -/
def roundHalfEven (q : Rat) : Int :=
  let f : Int := q.num.fdiv q.den
  let r : Int := q.num - f * q.den
  if 2 * r < (q.den : Int) then f
  else if (q.den : Int) < 2 * r then f + 1
  else if f % 2 = 0 then f else f + 1

/-- Python f-string fixed-point formatting `.2f` of an exact value
(modelling the float formatting on exact rationals): scale by 100, round
half to even, and print two digits after the decimal point. -/
def formatTwoDecimals (q : Rat) : String :=
  let n : Int := roundHalfEven (mkRat (q.num * 100) q.den)
  let a : Nat := n.natAbs
  let fracPart : Nat := a % 100
  let fracStr : String := (if fracPart < 10 then "0" else "") ++ toString fracPart
  (if n < 0 then "-" else "") ++ toString (a / 100) ++ "." ++ fracStr

/-- Python f-string `.2f` formatting of a possibly-NaN value: numpy float
division by zero yields NaN, which formats as the text `nan`. -/
def formatTwoDecimalsOpt : Option Rat → String
  | none => "nan"
  | some q => formatTwoDecimals q

/-- numpy float true division with a count denominator: a zero denominator
does not raise, it produces NaN (modelled as `none`). -/
def floatDiv (a : Rat) (b : Nat) : Option Rat :=
  if b = 0 then none else some (rDivNat a b)

/-- `calculate_kpis(data)` from `app.py` lines 34-40:
`total_sales = data['SALES'].sum()`;
`sales_in_m = f"\x7btotal_sales / 1000000:.2f\x7dM"`;
`total_orders = data['ORDERNUMBER'].nunique()`;
`average_sales_per_order = f"\x7btotal_sales / total_orders / 1000:.2f\x7dK"`;
`unique_customers = data['CUSTOMERNAME'].nunique()`;
returns `[sales_in_m, total_orders, average_sales_per_order, unique_customers]`. -/
def calculate_kpis (data : List Row) : List KPIEntry :=
  let total_sales := sumSales data
  let sales_in_m := formatTwoDecimals (rDivNat total_sales 1000000) ++ "M"
  let total_orders := nunique Row.ordernumber data
  let average_sales_per_order :=
    formatTwoDecimalsOpt ((floatDiv total_sales total_orders).map (fun q => rDivNat q 1000)) ++ "K"
  let unique_customers := nunique Row.customername data
  [KPIEntry.str sales_in_m, KPIEntry.num total_orders,
   KPIEntry.str average_sales_per_order, KPIEntry.num unique_customers]

/-- `filter_data(data, column, values)` from `app.py` line 29:
`data[data[column].isin(values)] if values else data`. An empty `values`
list is falsy in Python, so the data is returned unchanged; otherwise the
boolean mask `isin` keeps the rows whose value in `column` is a member of
`values`. -/
def filter_data (data : List Row) (column : Row → String) (values : List String) : List Row :=
  if values.isEmpty then data else data.filter (fun r => values.contains (column r))

/-- The date-range mask of `main` (`app.py` line 152):
`filtered_data[(filtered_data['ORDERDATE'] >= start_date) & (filtered_data['ORDERDATE'] <= end_date)]`. -/
def applyDateRange (data : List Row) (start_date end_date : Nat) : List Row :=
  data.filter (fun r => decide (start_date ≤ r.orderdate) && decide (r.orderdate ≤ end_date))

/-- The filtering block of `main` (`app.py` lines 149-156): copy the loaded
data, apply the date-range mask, then `filter_data` on PRODUCTLINE, then
COUNTRY, then STATUS, each rebinding `filtered_data`. -/
def main_filtered_data (data : List Row) (start_date end_date : Nat)
    (selected_product_lines selected_countries selected_statuses : List String) : List Row :=
  let filtered := data
  let filtered := applyDateRange filtered start_date end_date
  let filtered := filter_data filtered Row.productline selected_product_lines
  let filtered := filter_data filtered Row.country selected_countries
  let filtered := filter_data filtered Row.status selected_statuses
  filtered

/-- Strict lexicographic comparison of two character lists by code point,
as a boolean (the comparison Python applies to strings, hence the one
pandas uses when sorting string group keys). -/
def charListLtB : List Char → List Char → Bool
  | [], [] => false
  | [], _ :: _ => true
  | _ :: _, [] => false
  | a :: as, b :: bs =>
    if a.toNat < b.toNat then true
    else if b.toNat < a.toNat then false
    else charListLtB as bs

/-- Strict lexicographic comparison of two strings by code point, as a
boolean. `strLtB_iff_lt` below shows it decides the order on `String`. -/
def strLtB (a b : String) : Bool :=
  charListLtB a.data b.data

/-- Strict comparison of two naturals as a boolean, used for ordering
date keys. -/
def natLtB (a b : Nat) : Bool :=
  decide (a < b)

/-- Insert a key into a strictly ascending duplicate-free list of keys,
keeping it strictly ascending: the group-key order maintained by pandas
`groupby` with its default `sort=True`. The order is given as a boolean
comparison `lt`. -/
def insertKey {α : Type} [DecidableEq α] (lt : α → α → Bool) (k : α) : List α → List α
  | [] => [k]
  | k' :: ks =>
    if k = k' then k' :: ks
    else if lt k k' then k :: k' :: ks
    else k' :: insertKey lt k ks

/-- The strictly ascending list of the distinct values of a list, for the
boolean comparison `lt`. -/
def sortedKeys {α : Type} [DecidableEq α] (lt : α → α → Bool) (l : List α) : List α :=
  l.foldr (insertKey lt) []

/-- `data.groupby(key)['SALES'].sum().reset_index()`: one output row per
distinct key, in ascending key order (`groupby` sorts group keys by
default), carrying the sum of SALES over the rows with that key. -/
def groupSumBy {α : Type} [DecidableEq α] (lt : α → α → Bool) (key : Row → α)
    (data : List Row) : List (α × Rat) :=
  (sortedKeys lt (data.map key)).map
    (fun k => (k, sumSales (data.filter (fun r => decide (key r = k)))))

/-- Stable insertion into a list ascending in the summed SALES value (the
second component): a new element goes before the first element whose value
is at least as large, so elements with equal values keep their relative
order. -/
def insertBySales (p : String × Rat) : List (String × Rat) → List (String × Rat)
  | [] => [p]
  | q :: qs => if p.2 ≤ q.2 then p :: q :: qs else q :: insertBySales p qs

/-- Stable ascending insertion sort by the summed SALES value: the
ascending argsort that pandas computes inside `sort_values` (numpy's sort
is stable at the group-list sizes arising here). -/
def sortBySalesAsc : List (String × Rat) → List (String × Rat)
  | [] => []
  | p :: ps => insertBySales p (sortBySalesAsc ps)

/-- `sort_values('SALES', ascending=False)`: pandas `nargsort` computes
the ascending argsort and reverses the whole indexer when
`ascending=False`. -/
def sortValuesSalesDesc (l : List (String × Rat)) : List (String × Rat) :=
  (sortBySalesAsc l).reverse

/-- `top_customers` from `display_charts` (`app.py` lines 122-123):
`data.groupby('CUSTOMERNAME')['SALES'].sum().reset_index().sort_values('SALES', ascending=False).head(10)`. -/
def top_customers (data : List Row) : List (String × Rat) :=
  (sortValuesSalesDesc (groupSumBy strLtB Row.customername data)).take 10

/-- `total_sales_by_product_line` from `display_charts` (`app.py` line
135): `data.groupby('PRODUCTLINE')['SALES'].sum().reset_index()`. -/
def total_sales_by_product_line (data : List Row) : List (String × Rat) :=
  groupSumBy strLtB Row.productline data

/-- One data point handed to the plotly area chart: an x value (the order
date), an optional series key (the product line when the chart is split by
`color='PRODUCTLINE'`, nothing when the lines are combined), and a y value
(the sales amount). -/
structure ChartPoint where
  date : Nat
  series : Option String
  sales : Rat
deriving DecidableEq

/-- The data fed to the area chart by `display_charts` (`app.py` lines
106-111): `px.area(data, x='ORDERDATE', y='SALES', ...)` when the Combine
Product Lines box is checked, `px.area(data, x='ORDERDATE', y='SALES',
color='PRODUCTLINE', ...)` otherwise. `px.area` receives the dataframe as
is, one point per row in row order; the `color` argument only assigns each
point its series key. -/
def areaChartData (data : List Row) (combine_product_lines : Bool) : List ChartPoint :=
  if combine_product_lines then
    data.map (fun r => ⟨r.orderdate, none, r.sales⟩)
  else
    data.map (fun r => ⟨r.orderdate, some r.productline, r.sales⟩)

/-- Following the spec's words for `salesOverTime` with `combineLines`
true: group by order date only and sum the sales amount per date,
producing one series. Stated for comparison with `areaChartData`. -/
def salesOverTime_specCombined (data : List Row) : List (Nat × Rat) :=
  groupSumBy natLtB Row.orderdate data

/-- Sum of the y values of a list of chart points. -/
def sumChartSales (l : List ChartPoint) : Rat :=
  l.foldr (fun p acc => rAdd p.sales acc) 0

/-- A concrete sample row used by witnesses and counterexamples. -/
def rowAlpha : Row :=
  ⟨1, 1, 100, "Alpha", "P1", "Vans", "PT", "Shipped"⟩

/-- A second concrete sample row: same order date and sales amount as
`rowAlpha`, different order number and customer. -/
def rowBeta : Row :=
  ⟨2, 1, 100, "Beta", "P2", "Trucks", "US", "Shipped"⟩

/-- A concrete sample row with SALES = 2500000, exercising the KPI
formatting. -/
def rowBig : Row :=
  ⟨1, 1, 2500000, "Alpha", "P1", "Vans", "PT", "Shipped"⟩

/-- `rAdd` is the addition of `Rat`. -/
theorem rAdd_eq_add (a b : Rat) : rAdd a b = a + b :=
  (Rat.add_def' a b).symm

/-- `rDivNat` is the field division of `Rat` by a natural number. -/
theorem rDivNat_eq_div (a : Rat) (n : Nat) : rDivNat a n = a / n := by
  rw [rDivNat, Rat.mkRat_eq_div]
  push_cast
  rw [← div_div, Rat.num_div_den]

/-- `sumSales` agrees with the Mathlib list sum of the SALES column. -/
theorem sumSales_eq_sum (data : List Row) : sumSales data = (data.map Row.sales).sum := by
  induction data with
  | nil => rfl
  | cons r t ih =>
    simp only [sumSales, List.foldr, List.map, List.sum_cons, rAdd_eq_add] at *
    rw [ih]

/-- Characters with equal code points are equal. -/
theorem charEq_of_toNat_eq {a b : Char} (h : a.toNat = b.toNat) : a = b := by
  apply Char.eq_of_val_eq
  apply UInt32.toNat.inj
  show a.toNat = b.toNat
  exact h

/-- `charListLtB` decides the lexicographic order on character lists. -/
theorem charListLtB_iff_lt : ∀ as bs : List Char, charListLtB as bs = true ↔ as < bs := by
  intro as
  induction as with
  | nil =>
    intro bs
    cases bs with
    | nil =>
      simp only [charListLtB]
      constructor
      · intro h; exact absurd h (by simp)
      · intro h; cases h
    | cons b bs2 =>
      simp only [charListLtB]
      constructor
      · intro _; exact List.Lex.nil
      · intro _; trivial
  | cons a as2 ih =>
    intro bs
    cases bs with
    | nil =>
      simp only [charListLtB]
      constructor
      · intro h; exact absurd h (by simp)
      · intro h; cases h
    | cons b bs2 =>
      rw [charListLtB]
      by_cases hab : a.toNat < b.toNat
      · rw [if_pos hab]
        constructor
        · intro _; exact List.Lex.rel hab
        · intro _; rfl
      · by_cases hba : b.toNat < a.toNat
        · rw [if_neg hab, if_pos hba]
          constructor
          · intro h; exact absurd h (by simp)
          · intro h
            cases h with
            | rel h2 => exact absurd h2 hab
            | cons h2 => exact absurd hba (Nat.lt_irrefl _)
        · have hc : a = b := charEq_of_toNat_eq (by omega)
          subst hc
          rw [if_neg hab, if_neg hba, ih bs2]
          constructor
          · intro h; exact List.Lex.cons h
          · intro h
            cases h with
            | rel h2 => exact absurd h2 (Nat.lt_irrefl _)
            | cons h2 => exact h2

/-- `charListLtB` is transitive. -/
theorem charListLtB_trans : ∀ as bs cs : List Char,
    charListLtB as bs = true → charListLtB bs cs = true → charListLtB as cs = true := by
  intro as
  induction as with
  | nil =>
    intro bs cs h1 h2
    cases bs with
    | nil => exact absurd h1 (by simp [charListLtB])
    | cons b bs2 =>
      cases cs with
      | nil => exact absurd h2 (by simp [charListLtB])
      | cons c cs2 => simp [charListLtB]
  | cons a as2 ih =>
    intro bs cs h1 h2
    cases bs with
    | nil => exact absurd h1 (by simp [charListLtB])
    | cons b bs2 =>
      cases cs with
      | nil => exact absurd h2 (by simp [charListLtB])
      | cons c cs2 =>
        rw [charListLtB] at h1 h2 ⊢
        by_cases hab : a.toNat < b.toNat
        · by_cases hbc : b.toNat < c.toNat
          · rw [if_pos (Nat.lt_trans hab hbc)]
          · by_cases hcb : c.toNat < b.toNat
            · rw [if_neg hbc, if_pos hcb] at h2
              exact absurd h2 (by simp)
            · rw [if_pos (by omega : a.toNat < c.toNat)]
        · by_cases hba : b.toNat < a.toNat
          · rw [if_neg hab, if_pos hba] at h1
            exact absurd h1 (by simp)
          · rw [if_neg hab, if_neg hba] at h1
            by_cases hbc : b.toNat < c.toNat
            · rw [if_pos (by omega : a.toNat < c.toNat)]
            · by_cases hcb : c.toNat < b.toNat
              · rw [if_neg hbc, if_pos hcb] at h2
                exact absurd h2 (by simp)
              · rw [if_neg hbc, if_neg hcb] at h2
                rw [if_neg (by omega : ¬ a.toNat < c.toNat),
                  if_neg (by omega : ¬ c.toNat < a.toNat)]
                exact ih bs2 cs2 h1 h2

/-- Character lists that compare below each other in neither direction are
equal. -/
theorem charListLtB_eq_of_not : ∀ as bs : List Char,
    charListLtB as bs = false → charListLtB bs as = false → as = bs := by
  intro as
  induction as with
  | nil =>
    intro bs h1 _
    cases bs with
    | nil => rfl
    | cons b bs2 => exact absurd h1 (by simp [charListLtB])
  | cons a as2 ih =>
    intro bs h1 h2
    cases bs with
    | nil => exact absurd h2 (by simp [charListLtB])
    | cons b bs2 =>
      rw [charListLtB] at h1 h2
      by_cases hab : a.toNat < b.toNat
      · rw [if_pos hab] at h1
        exact absurd h1 (by simp)
      · by_cases hba : b.toNat < a.toNat
        · rw [if_pos hba] at h2
          exact absurd h2 (by simp)
        · rw [if_neg hab, if_neg hba] at h1
          rw [if_neg hba, if_neg hab] at h2
          have hc : a = b := charEq_of_toNat_eq (by omega)
          rw [hc, ih bs2 h1 h2]

/-- `strLtB` decides the order on `String`. -/
theorem strLtB_iff_lt (a b : String) : strLtB a b = true ↔ a < b := by
  rw [String.lt_iff_toList_lt]
  exact charListLtB_iff_lt a.data b.data

/-- `strLtB` is transitive. -/
theorem strLtB_trans (a b c : String) (h1 : strLtB a b = true) (h2 : strLtB b c = true) :
    strLtB a c = true :=
  charListLtB_trans a.data b.data c.data h1 h2

/-- `strLtB` is total: distinct strings compare in one direction. -/
theorem strLtB_total (a b : String) (hne : a ≠ b) :
    strLtB a b = true ∨ strLtB b a = true := by
  cases hab : strLtB a b
  · cases hba : strLtB b a
    · have : a = b := by
        cases a with
        | mk as =>
          cases b with
          | mk bs => rw [charListLtB_eq_of_not as bs hab hba]
      exact absurd this hne
    · exact Or.inr rfl
  · exact Or.inl rfl

/-- Membership in `insertKey`: exactly the inserted key and the previous
keys. -/
theorem mem_insertKey {α : Type} [DecidableEq α] (lt : α → α → Bool) (k x : α) (l : List α) :
    x ∈ insertKey lt k l ↔ x = k ∨ x ∈ l := by
  induction l with
  | nil => simp [insertKey]
  | cons a t ih =>
    rw [insertKey]
    by_cases h1 : k = a
    · subst h1
      rw [if_pos rfl]
      simp only [List.mem_cons]
      tauto
    · rw [if_neg h1]
      by_cases h2 : lt k a = true
      · rw [if_pos h2]
        simp only [List.mem_cons]
      · rw [if_neg h2]
        simp only [List.mem_cons, ih]
        tauto

/-- `insertKey` keeps the key list strictly ascending, for a transitive
total boolean comparison. -/
theorem pairwise_insertKey {α : Type} [DecidableEq α] (lt : α → α → Bool)
    (htrans : ∀ a b c : α, lt a b = true → lt b c = true → lt a c = true)
    (htotal : ∀ a b : α, a ≠ b → lt a b = true ∨ lt b a = true)
    (k : α) (l : List α) (hl : l.Pairwise (fun a b => lt a b = true)) :
    (insertKey lt k l).Pairwise (fun a b => lt a b = true) := by
  induction l with
  | nil => simp [insertKey]
  | cons a t ih =>
    rw [List.pairwise_cons] at hl
    obtain ⟨ha, ht⟩ := hl
    rw [insertKey]
    by_cases h1 : k = a
    · rw [if_pos h1]
      exact List.pairwise_cons.mpr ⟨ha, ht⟩
    · rw [if_neg h1]
      by_cases h2 : lt k a = true
      · rw [if_pos h2]
        refine List.pairwise_cons.mpr ⟨?_, List.pairwise_cons.mpr ⟨ha, ht⟩⟩
        intro x hx
        rcases List.mem_cons.mp hx with rfl | hx
        · exact h2
        · exact htrans k a x h2 (ha x hx)
      · rw [if_neg h2]
        have hak : lt a k = true := by
          rcases htotal k a h1 with h | h
          · exact absurd h h2
          · exact h
        refine List.pairwise_cons.mpr ⟨?_, ih ht⟩
        intro x hx
        rcases (mem_insertKey lt k x t).mp hx with rfl | hx
        · exact hak
        · exact ha x hx

/-- `sortedKeys` is strictly ascending (so also duplicate-free), for a
transitive total boolean comparison. -/
theorem pairwise_sortedKeys {α : Type} [DecidableEq α] (lt : α → α → Bool)
    (htrans : ∀ a b c : α, lt a b = true → lt b c = true → lt a c = true)
    (htotal : ∀ a b : α, a ≠ b → lt a b = true ∨ lt b a = true)
    (l : List α) : (sortedKeys lt l).Pairwise (fun a b => lt a b = true) := by
  induction l with
  | nil => exact List.Pairwise.nil
  | cons a t ih => exact pairwise_insertKey lt htrans htotal a (sortedKeys lt t) ih

/-- `sortedKeys` has exactly the values of the input list. -/
theorem mem_sortedKeys {α : Type} [DecidableEq α] (lt : α → α → Bool) (l : List α) (x : α) :
    x ∈ sortedKeys lt l ↔ x ∈ l := by
  induction l with
  | nil => exact Iff.rfl
  | cons a t ih =>
    have hstep : sortedKeys lt (a :: t) = insertKey lt a (sortedKeys lt t) := rfl
    rw [hstep, mem_insertKey, ih, List.mem_cons]

/-- The group keys of `groupSumBy` are strictly ascending, for a
transitive total boolean comparison. -/
theorem pairwise_fst_groupSumBy {α : Type} [DecidableEq α] (lt : α → α → Bool)
    (htrans : ∀ a b c : α, lt a b = true → lt b c = true → lt a c = true)
    (htotal : ∀ a b : α, a ≠ b → lt a b = true ∨ lt b a = true)
    (key : Row → α) (data : List Row) :
    (groupSumBy lt key data).Pairwise (fun p q => lt p.1 q.1 = true) := by
  rw [groupSumBy]
  exact (pairwise_sortedKeys lt htrans htotal (data.map key)).map _ (fun a b h => h)

/-- Membership in `insertBySales`: exactly the inserted pair and the
previous pairs. -/
theorem mem_insertBySales (p x : String × Rat) (l : List (String × Rat)) :
    x ∈ insertBySales p l ↔ x = p ∨ x ∈ l := by
  induction l with
  | nil => simp [insertBySales]
  | cons q qs ih =>
    rw [insertBySales]
    by_cases h : p.2 ≤ q.2
    · rw [if_pos h]
      simp only [List.mem_cons]
    · rw [if_neg h]
      simp only [List.mem_cons, ih]
      tauto

/-- `sortBySalesAsc` has exactly the pairs of the input list. -/
theorem mem_sortBySalesAsc (l : List (String × Rat)) (x : String × Rat) :
    x ∈ sortBySalesAsc l ↔ x ∈ l := by
  induction l with
  | nil => exact Iff.rfl
  | cons p ps ih =>
    have hstep : sortBySalesAsc (p :: ps) = insertBySales p (sortBySalesAsc ps) := rfl
    rw [hstep, mem_insertBySales, ih, List.mem_cons]

/-- Inserting a pair whose name is below every name present keeps the list
sorted by sales ascending with ties sorted by name ascending: the
stability of the insertion places the new pair before the pairs of equal
sales, all of which carry larger names. -/
theorem pairwise_insertBySales (p : String × Rat) (l : List (String × Rat))
    (hl : l.Pairwise (fun a b => a.2 < b.2 ∨ (a.2 = b.2 ∧ a.1 < b.1)))
    (hn : ∀ q ∈ l, p.1 < q.1) :
    (insertBySales p l).Pairwise (fun a b => a.2 < b.2 ∨ (a.2 = b.2 ∧ a.1 < b.1)) := by
  induction l with
  | nil => simp [insertBySales]
  | cons q qs ih =>
    rw [List.pairwise_cons] at hl
    obtain ⟨hq, hqs⟩ := hl
    rw [insertBySales]
    by_cases h : p.2 ≤ q.2
    · rw [if_pos h]
      refine List.pairwise_cons.mpr ⟨?_, List.pairwise_cons.mpr ⟨hq, hqs⟩⟩
      intro x hx
      rcases List.mem_cons.mp hx with rfl | hx
      · rcases lt_or_eq_of_le h with hlt | heq
        · exact Or.inl hlt
        · exact Or.inr ⟨heq, hn x (List.mem_cons_self x qs)⟩
      · rcases hq x hx with hlt | ⟨heq, _⟩
        · exact Or.inl (lt_of_le_of_lt h hlt)
        · rcases lt_or_eq_of_le (le_of_le_of_eq h heq) with hlt | heq2
          · exact Or.inl hlt
          · exact Or.inr ⟨heq2, hn x (List.mem_cons_of_mem q hx)⟩
    · rw [if_neg h]
      have hqp : q.2 < p.2 := not_le.mp h
      refine List.pairwise_cons.mpr ⟨?_, ih hqs (fun x hx => hn x (List.mem_cons_of_mem q hx))⟩
      intro x hx
      rcases (mem_insertBySales p x qs).mp hx with rfl | hx
      · exact Or.inl hqp
      · exact hq x hx

/-- Sorting a list whose names are strictly ascending by sales ascending
yields a list sorted lexicographically by (sales, name), both ascending:
the tie order inherited from stability is name ascending. -/
theorem pairwise_sortBySalesAsc (l : List (String × Rat))
    (hl : l.Pairwise (fun a b => a.1 < b.1)) :
    (sortBySalesAsc l).Pairwise (fun a b => a.2 < b.2 ∨ (a.2 = b.2 ∧ a.1 < b.1)) := by
  induction l with
  | nil => exact List.Pairwise.nil
  | cons p ps ih =>
    rw [List.pairwise_cons] at hl
    exact pairwise_insertBySales p (sortBySalesAsc ps) (ih hl.2)
      (fun q hq => hl.1 q ((mem_sortBySalesAsc ps q).mp hq))

/-- Sum of the y values of a list of chart points built one point per row
equals the sum of the SALES column, whenever the point builder copies the
row's sales. -/
theorem sumChartSales_map (data : List Row) (f : Row → ChartPoint)
    (h : ∀ r, (f r).sales = r.sales) : sumChartSales (data.map f) = sumSales data := by
  induction data with
  | nil => rfl
  | cons r t ih =>
    show rAdd (f r).sales (sumChartSales (t.map f)) = rAdd r.sales (sumSales t)
    rw [h, ih]

/-- C1: contrary to the claim (and to the function's own `List[float]`
annotation), `calculate_kpis` returns `total_sales` and
`avg_sales_per_order` as formatted display strings with M and K suffixes,
not as numbers; evaluated here at a one-row table with SALES = 2500000. -/
theorem calculate_kpis_returns_formatted_strings :
    calculate_kpis [rowBig] =
      [KPIEntry.str "2.50M", KPIEntry.num 1, KPIEntry.str "2500.00K", KPIEntry.num 1] := by
  decide

/-- C2: contrary to the claim, on the empty table `calculate_kpis` does
not define `avg_sales_per_order` as 0: it divides 0.0 by 0, which under
numpy yields NaN, rendered as the string `nanK`. The other three metrics
are 0 as claimed (total sales formatted as the string `0.00M`). -/
theorem calculate_kpis_empty_table_nan :
    calculate_kpis [] =
      [KPIEntry.str "0.00M", KPIEntry.num 0, KPIEntry.str "nanK", KPIEntry.num 0] := by
  decide

/-- C6: for every table, column and empty allowed-values list,
`filter_data` is the identity: an empty inclusion-list means no
restriction, not exclude-all. -/
theorem filter_data_empty_values_identity :
    ∀ (data : List Row) (column : Row → String), filter_data data column [] = data := by
  intro data column
  rfl

/-- C7: for a non-empty allowed-values list `L`, every row kept by
`filter_data` has its column value in `L` (soundness), and every row of
the input whose column value is in `L` appears in the output
(completeness). -/
theorem filter_data_sound_and_complete (data : List Row) (column : Row → String)
    (L : List String) (hL : L ≠ []) :
    (∀ r ∈ filter_data data column L, column r ∈ L) ∧
    (∀ r ∈ data, column r ∈ L → r ∈ filter_data data column L) := by
  have hne : L.isEmpty = false := by
    cases L with
    | nil => exact absurd rfl hL
    | cons a t => rfl
  constructor
  · intro r hr
    rw [filter_data, hne] at hr
    simp only [if_neg Bool.false_ne_true] at hr
    have := List.of_mem_filter hr
    exact List.mem_of_elem_eq_true this
  · intro r hr hcol
    rw [filter_data, hne]
    simp only [if_neg Bool.false_ne_true]
    exact List.mem_filter.mpr ⟨hr, List.elem_eq_true_of_mem hcol⟩

/-- Witness for `filter_data_sound_and_complete` at a concrete table. -/
theorem filter_data_sound_and_complete_witness :
    (∀ r ∈ filter_data [rowAlpha] Row.productline ["Vans"], r.productline ∈ ["Vans"]) ∧
    (∀ r ∈ [rowAlpha], r.productline ∈ ["Vans"] →
      r ∈ filter_data [rowAlpha] Row.productline ["Vans"]) :=
  filter_data_sound_and_complete [rowAlpha] Row.productline ["Vans"] (by decide)

/-- C8: the date-range filter keeps exactly the rows whose order date lies
between the two bounds, both inclusive, and it is idempotent for fixed
bounds. -/
theorem applyDateRange_inclusive_and_idempotent :
    ∀ (data : List Row) (s e : Nat),
    (∀ r, r ∈ applyDateRange data s e ↔ r ∈ data ∧ s ≤ r.orderdate ∧ r.orderdate ≤ e) ∧
    applyDateRange (applyDateRange data s e) s e = applyDateRange data s e := by
  intro data s e
  constructor
  · intro r
    constructor
    · intro hr
      have h := List.mem_filter.mp hr
      refine ⟨h.1, ?_, ?_⟩
      · have := h.2
        simp only [Bool.and_eq_true, decide_eq_true_eq] at this
        exact this.1
      · have := h.2
        simp only [Bool.and_eq_true, decide_eq_true_eq] at this
        exact this.2
    · intro ⟨hmem, h1, h2⟩
      refine List.mem_filter.mpr ⟨hmem, ?_⟩
      simp only [Bool.and_eq_true, decide_eq_true_eq]
      exact ⟨h1, h2⟩
  · rw [applyDateRange, applyDateRange, List.filter_filter]
    apply List.filter_congr
    intro r _
    cases h : (decide (s ≤ r.orderdate) && decide (r.orderdate ≤ e)) <;> simp [h]

/-- C5: the filter block of `main` is the left-to-right fold of the four
stages in the fixed order date-range, product-line, country, status, each
stage applied to the previous stage's output. -/
theorem main_filtered_data_is_left_fold :
    ∀ (data : List Row) (s e : Nat) (pls cs sts : List String),
    main_filtered_data data s e pls cs sts =
      List.foldl (fun t f => f t) data
        [fun t => applyDateRange t s e,
         fun t => filter_data t Row.productline pls,
         fun t => filter_data t Row.country cs,
         fun t => filter_data t Row.status sts] ∧
    main_filtered_data data s e pls cs sts =
      filter_data (filter_data (filter_data (applyDateRange data s e)
        Row.productline pls) Row.country cs) Row.status sts := by
  intro data s e pls cs sts
  exact ⟨rfl, rfl⟩

/-- C10: both filter primitives return order-preserving subsequences of
their input with each kept row unchanged, and therefore the output of the
whole pipeline of `main` is a sublist of the loaded table. -/
theorem filter_stages_sublist :
    (∀ (data : List Row) (column : Row → String) (values : List String),
      (filter_data data column values).Sublist data) ∧
    (∀ (data : List Row) (s e : Nat), (applyDateRange data s e).Sublist data) ∧
    (∀ (data : List Row) (s e : Nat) (pls cs sts : List String),
      (main_filtered_data data s e pls cs sts).Sublist data) := by
  have hfd : ∀ (data : List Row) (column : Row → String) (values : List String),
      (filter_data data column values).Sublist data := by
    intro data column values
    rw [filter_data]
    by_cases h : values.isEmpty
    · rw [if_pos h]
    · rw [if_neg h]
      exact List.filter_sublist data
  have hdr : ∀ (data : List Row) (s e : Nat), (applyDateRange data s e).Sublist data := by
    intro data s e
    exact List.filter_sublist data
  refine ⟨hfd, hdr, ?_⟩
  intro data s e pls cs sts
  exact ((hfd _ Row.status sts).trans ((hfd _ Row.country cs).trans
    ((hfd _ Row.productline pls).trans (hdr data s e))))

/-- C9: the totals-by-product-line table has its entries ordered by
product-line name ascending (not by summed sales), contains every product
line of the input with no truncation, and each entry carries the sum of
SALES over the rows of that product line. -/
theorem total_sales_by_product_line_grouped_by_name :
    ∀ data : List Row,
    (total_sales_by_product_line data).Pairwise (fun p q => p.1 < q.1) ∧
    (∀ k : String, k ∈ (total_sales_by_product_line data).map Prod.fst ↔
      k ∈ data.map Row.productline) ∧
    (∀ p ∈ total_sales_by_product_line data,
      p.2 = sumSales (data.filter (fun r => decide (r.productline = p.1)))) := by
  intro data
  refine ⟨?_, ?_, ?_⟩
  · exact (pairwise_fst_groupSumBy strLtB strLtB_trans strLtB_total Row.productline data).imp
      (fun h => (strLtB_iff_lt _ _).mp h)
  · intro k
    constructor
    · intro hk
      obtain ⟨p, hp, rfl⟩ := List.mem_map.mp hk
      rw [total_sales_by_product_line, groupSumBy] at hp
      obtain ⟨a, ha, rfl⟩ := List.mem_map.mp hp
      exact (mem_sortedKeys strLtB (data.map Row.productline) a).mp ha
    · intro hk
      refine List.mem_map.mpr
        ⟨(k, sumSales (data.filter (fun r => decide (r.productline = k)))), ?_, rfl⟩
      rw [total_sales_by_product_line, groupSumBy]
      exact List.mem_map.mpr ⟨k, (mem_sortedKeys strLtB (data.map Row.productline) k).mpr hk, rfl⟩
  · intro p hp
    rw [total_sales_by_product_line, groupSumBy] at hp
    obtain ⟨k, hk, rfl⟩ := List.mem_map.mp hp
    rfl

/-- C4 counterexample: on a table with two customers whose summed sales
tie at 100, `top_customers` lists Beta before Alpha, so ties between equal
sums are NOT broken by customer name ascending as the claim states. -/
theorem top_customers_tie_counterexample :
    top_customers [rowAlpha, rowBeta] = [("Beta", 100), ("Alpha", 100)] ∧
    ¬ (top_customers [rowAlpha, rowBeta]).Pairwise
        (fun p q => q.2 < p.2 ∨ (p.2 = q.2 ∧ p.1 < q.1)) := by
  have heval : top_customers [rowAlpha, rowBeta] = [("Beta", (100 : Rat)), ("Alpha", 100)] := by
    decide
  refine ⟨heval, ?_⟩
  rw [heval]
  intro hpw
  rw [List.pairwise_cons] at hpw
  have h := hpw.1 ("Alpha", (100 : Rat)) (List.mem_cons_self _ _)
  rcases h with h | ⟨_, h⟩
  · exact absurd h (by decide)
  · have hb : strLtB "Beta" "Alpha" = true := (strLtB_iff_lt "Beta" "Alpha").mpr h
    exact absurd hb (by decide)

/-- C4 amended: `top_customers` groups rows by customer name, sums sales
per group, returns at most 10 entries sorted descending by summed sales;
ties between equal sums appear in customer name DESCENDING order (the
ascending sales argsort is stable, keeping tied group keys in their
ascending order, and pandas reverses the whole order for
`ascending=False`), so the output is still deterministic. -/
theorem top_customers_ranked_desc :
    ∀ data : List Row,
    (top_customers data).length ≤ 10 ∧
    (top_customers data).Pairwise (fun p q => q.2 < p.2 ∨ (q.2 = p.2 ∧ q.1 < p.1)) ∧
    (∀ p ∈ top_customers data, p.1 ∈ data.map Row.customername ∧
      p.2 = sumSales (data.filter (fun r => decide (r.customername = p.1)))) := by
  intro data
  refine ⟨?_, ?_, ?_⟩
  · rw [top_customers, List.length_take]
    exact min_le_left 10 _
  · have h1 : (groupSumBy strLtB Row.customername data).Pairwise (fun p q => p.1 < q.1) :=
      (pairwise_fst_groupSumBy strLtB strLtB_trans strLtB_total Row.customername data).imp
        (fun h => (strLtB_iff_lt _ _).mp h)
    have h2 := pairwise_sortBySalesAsc (groupSumBy strLtB Row.customername data) h1
    have h3 : (sortValuesSalesDesc (groupSumBy strLtB Row.customername data)).Pairwise
        (fun p q => q.2 < p.2 ∨ (q.2 = p.2 ∧ q.1 < p.1)) := by
      rw [sortValuesSalesDesc, List.pairwise_reverse]
      exact h2
    exact h3.sublist (List.take_sublist 10 _)
  · intro p hp
    have hp2 : p ∈ sortValuesSalesDesc (groupSumBy strLtB Row.customername data) :=
      (List.take_sublist 10 _).subset hp
    rw [sortValuesSalesDesc, List.mem_reverse,
      mem_sortBySalesAsc (groupSumBy strLtB Row.customername data) p] at hp2
    rw [groupSumBy] at hp2
    obtain ⟨k, hk, rfl⟩ := List.mem_map.mp hp2
    exact ⟨(mem_sortedKeys strLtB (data.map Row.customername) k).mp hk, rfl⟩

/-- C3 counterexample: on a table with two rows sharing order date 1 with
sales 100 each, the area chart in combined mode is fed the two raw points
(1, 100), (1, 100), not the grouped-and-summed series (1, 200) that the
claim (following the spec's `salesOverTime`) prescribes. -/
theorem area_chart_unaggregated_counterexample :
    (areaChartData [rowAlpha, rowBeta] true).map (fun p => (p.date, p.sales)) =
      [(1, 100), (1, 100)] ∧
    salesOverTime_specCombined [rowAlpha, rowBeta] = [(1, 200)] ∧
    (areaChartData [rowAlpha, rowBeta] true).map (fun p => (p.date, p.sales)) ≠
      salesOverTime_specCombined [rowAlpha, rowBeta] := by
  decide

/-- C3 amended: the data fed to the area chart is the filtered table
itself, un-aggregated: one point per row, each point carrying that row's
order date and exact sales amount; the combine toggle only controls
whether a point carries its product line as a series key. In particular
the fed points' sales sum to the table's total sales. -/
theorem areaChartData_one_point_per_row :
    ∀ (data : List Row) (combine : Bool),
    (areaChartData data combine).length = data.length ∧
    (∀ p ∈ areaChartData data combine, ∃ r ∈ data, p.date = r.orderdate ∧ p.sales = r.sales ∧
      p.series = (if combine then none else some r.productline)) ∧
    sumChartSales (areaChartData data combine) = sumSales data := by
  intro data combine
  cases combine
  · refine ⟨List.length_map data _, ?_, ?_⟩
    · intro p hp
      obtain ⟨r, hr, rfl⟩ := List.mem_map.mp hp
      exact ⟨r, hr, rfl, rfl, rfl⟩
    · exact sumChartSales_map data _ (fun r => rfl)
  · refine ⟨List.length_map data _, ?_, ?_⟩
    · intro p hp
      obtain ⟨r, hr, rfl⟩ := List.mem_map.mp hp
      exact ⟨r, hr, rfl, rfl, rfl⟩
    · exact sumChartSales_map data _ (fun r => rfl)
